import Mathlib

/-!
Verification of the lesson-plan generator's parsing and matching core.

The development shallowly embeds the TypeScript source of the repository:

* `Textual` — the current `src/lib/parsers.ts` (`CalendarTableParser` over a
  plain OCR text string, `MindMapParser`, `GamesListParser`,
  `GetSpiralReviewItems`, the `TemplateProcessor` substitution pass);
* `Positional` — the positional snapshot of the same module (a
  `CalendarTableParser` over OCR word tokens with bounding boxes);
* `App` — the fuzzy game matcher and mind-map lookup from `App.tsx`.

JavaScript strings are embedded as `List Char` (all inputs of interest are
ASCII, where JS UTF-16 indices and Lean character indices agree), numbers as
`ℚ` (the arithmetic performed — midpoints, comparisons — is exact on the
rationals), and `Array.prototype.sort` (stable in JS) as the stable
`List.insertionSort`.
-/

namespace JsStr

/-- Embeds the JavaScript `\s` whitespace class on the ASCII range. -/
def isWS (c : Char) : Bool :=
  c = ' ' ∨ c = '\t' ∨ c = '\n' ∨ c = '\r' ∨ c = '\x0b' ∨ c = '\x0c'

/-- Embeds the JavaScript regex word-character class `\w` = `[A-Za-z0-9_]`. -/
def isWordChar (c : Char) : Bool :=
  ('a' ≤ c ∧ c ≤ 'z') ∨ ('A' ≤ c ∧ c ≤ 'Z') ∨ ('0' ≤ c ∧ c ≤ '9') ∨ c = '_'

/-- Lowercase ASCII letter or digit, the `[a-z0-9]` class under the `i` flag. -/
def isAlnum (c : Char) : Bool :=
  ('a' ≤ c ∧ c ≤ 'z') ∨ ('A' ≤ c ∧ c ≤ 'Z') ∨ ('0' ≤ c ∧ c ≤ '9')

/-- Embeds `String.prototype.toLowerCase` on ASCII data. -/
def lower (s : List Char) : List Char := s.map Char.toLower

/-- `needle.isPrefixOf hay` up to ASCII case (both sides lowered). -/
def isPrefixOfCI (needle hay : List Char) : Bool :=
  List.isPrefixOf (lower needle) (lower hay)

/-- Embeds `String.prototype.includes`: `containsSub hay needle` is true iff
`needle` occurs as a contiguous substring of `hay`. -/
def containsSub (hay needle : List Char) : Bool :=
  match hay with
  | [] => List.isPrefixOf needle []
  | _ :: rest => List.isPrefixOf needle hay || containsSub rest needle

/-- Embeds `String.prototype.indexOf` for a substring: index of the first
occurrence, `none` when absent (`-1` in JS). -/
def indexOfSub (hay needle : List Char) : Option Nat :=
  match hay with
  | [] => if List.isPrefixOf needle ([] : List Char) then some 0 else none
  | _ :: rest =>
    if List.isPrefixOf needle hay then some 0
    else (indexOfSub rest needle).map (· + 1)

/-- Embeds `String.prototype.trim` (strip whitespace from both ends). -/
def trim (s : List Char) : List Char :=
  ((s.dropWhile isWS).reverse.dropWhile isWS).reverse

/-- Embeds `String.prototype.split(sep)` for a single-character separator. -/
def splitOnChar (sep : Char) : List Char → List (List Char)
  | [] => [[]]
  | c :: rest =>
    if c = sep then [] :: splitOnChar sep rest
    else
      match splitOnChar sep rest with
      | [] => [[c]]
      | h :: t => (c :: h) :: t

/-- Embeds `String.prototype.split(/\s+/)`: fields between maximal whitespace
runs; a leading or trailing run contributes an empty field, as in JS. -/
def splitWSAux : List Char → List Char → List (List Char)
  | [], cur => [cur.reverse]
  | c :: rest, cur =>
    if isWS c then cur.reverse :: splitWSAux (rest.dropWhile (fun d => isWS d)) []
    else splitWSAux rest (c :: cur)
  termination_by s _ => s.length
  decreasing_by
    · simp only [List.length_cons]
      exact Nat.lt_succ_of_le (rest.dropWhile_sublist _).length_le
    · simp

/-- Embeds `String.prototype.split(/\s+/)`. -/
def splitWS (s : List Char) : List (List Char) := splitWSAux s []

/-- Embeds `String.prototype.replaceAll` with a plain-string pattern:
left-to-right, non-overlapping replacement of every occurrence.  The source
only ever calls it with a non-empty pattern, so the empty pattern is mapped to
the identity. -/
def replaceAll (s pat rep : List Char) : List Char :=
  if hp : pat = [] then s
  else
    match s with
    | [] => []
    | c :: rest =>
      if List.isPrefixOf pat (c :: rest) then
        rep ++ replaceAll ((c :: rest).drop pat.length) pat rep
      else c :: replaceAll rest pat rep
  termination_by s.length
  decreasing_by
    · have : 0 < pat.length := List.length_pos.mpr hp
      simp only [List.length_drop, List.length_cons]
      omega
    · simp

/-- Joins a list of strings with single spaces, as `Array.prototype.join(' ')`. -/
def joinSpace : List (List Char) → List Char
  | [] => []
  | [s] => s
  | s :: rest => s ++ ' ' :: joinSpace rest

end JsStr

namespace Textual

open JsStr

/-! Embedding of `src/lib/parsers.ts` (current revision). -/

/-- Embeds `MindMapParser`'s result `{ data, date }`.  The `Record` is kept as
the list of assignments in insertion order (keys are written at most once per
distinct key by a last-write-wins JS `Record`; the parser below models each
`data[k] = v` as an append, and lookups take the last binding). -/
structure MindMapResult where
  data : List (List Char × List Char)
  date : List Char
  deriving Repr, DecidableEq

/-- Last-write-wins lookup in an insertion-ordered `Record` embedding. -/
def recordGet (data : List (List Char × List Char)) (key : List Char) : Option (List Char) :=
  (data.reverse.find? (fun kv => kv.1 = key)).map (·.2)

/-- Month names recognised by `MindMapParser`'s date regex. -/
def monthNames : List (List Char) :=
  ["January".toList, "February".toList, "March".toList, "April".toList,
   "May".toList, "June".toList, "July".toList, "August".toList,
   "September".toList, "October".toList, "November".toList, "December".toList]

/-- Tries to match `/(Month)\s+\d+/i` at the start of `s`, returning the
matched substring. -/
def matchDateAt (s : List Char) : Option (List Char) :=
  monthNames.findSome? fun m =>
    if isPrefixOfCI m s then
      let rest := s.drop m.length
      let ws := rest.takeWhile isWS
      let digits := (rest.drop ws.length).takeWhile (fun c => c.isDigit)
      if ws ≠ [] ∧ digits ≠ [] then some (s.take m.length ++ ws ++ digits)
      else none
    else none

/-- Leftmost match of the `MindMapParser` date regex over the whole text. -/
def scanDate : List Char → Option (List Char)
  | [] => none
  | c :: rest =>
    match matchDateAt (c :: rest) with
    | some m => some m
    | none => scanDate rest

/-- Embeds `MindMapParser` from `parsers.ts`: lines containing `week` set the
current week label; later `key: value` lines record
`"<week> <day>".toLowerCase() ↦ target`, where `day` and `target` are the first
two `':'`-separated fields, trimmed. -/
def MindMapParser (content : List Char) : MindMapResult :=
  let lines := (splitOnChar '\n' content).filter (fun l => trim l ≠ [])
  let extractedDate := (scanDate content).getD []
  let step := fun (st : List Char × List (List Char × List Char)) (line : List Char) =>
    let currentWeek := st.1
    if containsSub (lower line) "week".toList then (trim line, st.2)
    else if currentWeek ≠ [] ∧ containsSub line [':'] then
      let fields := (splitOnChar ':' line).map trim
      let day := fields.getD 0 []
      let target := fields.getD 1 []
      (currentWeek, st.2 ++ [(lower (currentWeek ++ ' ' :: day), target)])
    else st
  { data := (lines.foldl step ([], [])).2, date := extractedDate }

/-- Embeds `GamesListParser` from `parsers.ts`: every line containing `':'`
records `name.toLowerCase() ↦ desc` where `name`, `desc` are the first two
`':'`-separated fields, trimmed. -/
def GamesListParser (content : List Char) : List (List Char × List Char) :=
  let lines := (splitOnChar '\n' content).filter (fun l => trim l ≠ [])
  lines.foldl
    (fun games line =>
      if containsSub line [':'] then
        let fields := (splitOnChar ':' line).map trim
        games ++ [(lower (fields.getD 0 []), fields.getD 1 [])]
      else games)
    []

/-- Result shape of `GetSpiralReviewItems`.  The empty-list branch returns
`{ sentence, nextIndex }` and the main branch `{ oldest, recent, nextIndex }`;
the union of both shapes is embedded with `Option` fields. -/
structure SpiralResult where
  sentence : Option (List Char)
  oldest : Option (List Char)
  recent : Option (List Char)
  nextIndex : Nat
  deriving Repr, DecidableEq

/-- Embeds `GetSpiralReviewItems` from `parsers.ts`.  The call
`Math.floor(Math.random() * topCount)` is embedded by the oracle argument
`recentIndex` (the claims under verification do not constrain the `recent`
field). -/
def GetSpiralReviewItems (list : List (List Char)) (currentIndex : Nat)
    (recentIndex : Nat) : SpiralResult :=
  if list.length = 0 then
    { sentence := some "No review items available.".toList,
      oldest := none, recent := none, nextIndex := 0 }
  else
    let bottomIndex := list.length - 1 - currentIndex % list.length
    { sentence := none,
      oldest := list.get? bottomIndex,
      recent := list.get? recentIndex,
      nextIndex := currentIndex + 1 }

/-- The placeholder string `\x7b\x7bkey\x7d\x7d` built by `TemplateProcessor`. -/
def placeholder (key : List Char) : List Char :=
  '\x7b' :: '\x7b' :: key ++ ['\x7d', '\x7d']

/-- Embeds the placeholder-substitution pass of `TemplateProcessor`
(`Object.entries(data).forEach(([key, value]) => text =
text.replaceAll(placeholder, value))`), with `data` in entry order. -/
def substitutePlaceholders (data : List (List Char × List Char))
    (text : List Char) : List Char :=
  data.foldl (fun t kv => replaceAll t (placeholder kv.1) kv.2) text

/-- A `\x7b\x7b...\x7d\x7d`-shaped substring detector, used to state the
spec's side condition on replacement values: true iff `s` contains an
occurrence of `\x7b\x7b` followed (further right) by an occurrence of
`\x7d\x7d`. -/
def hasPlaceholderShape (s : List Char) : Bool :=
  match s with
  | [] => false
  | _ :: rest =>
    (List.isPrefixOf ['\x7b', '\x7b'] s && containsSub (s.drop 2) ['\x7d', '\x7d'])
      || hasPlaceholderShape rest

end Textual

namespace App

open JsStr
open Textual (recordGet)

/-! Embedding of the game-resolution and learning-target lookup steps of
`generateLessonPlan` in `App.tsx`. -/

/-- The `≥ 3`-character whitespace tokens of a string, in order (the messy
side is wrapped in a `Set` by the source, but is only consulted through
membership, which agrees with list membership). -/
def tokens3 (s : List Char) : List (List Char) :=
  (splitWS s).filter (fun w => 3 ≤ w.length)

/-- Overlap score of one catalog `name` against the messy-text token list:
`cleanWords.filter(w => messyWords.has(w)).length`. -/
def overlapScore (messyWords : List (List Char)) (name : List Char) : Nat :=
  ((tokens3 (lower name)).filter (fun w => messyWords.contains w)).length

/-- One step of the `findFuzzyGame` fold over `Object.keys(files.gamesList)`:
state is `(bestMatch, maxOverlap)`. -/
def fuzzyStep (messyWords : List (List Char)) (acc : List Char × Nat)
    (name : List Char) : List Char × Nat :=
  let overlap := overlapScore messyWords name
  if overlap > acc.2 ∧ 1 ≤ overlap then (name, overlap) else acc

/-- Embeds `findFuzzyGame` from `App.tsx`: token-set overlap maximisation over
the catalog names in iteration order, starting from `("", 0)`. -/
def findFuzzyGame (names : List (List Char)) (messyGameText : List Char) : List Char :=
  let messyWords := tokens3 messyGameText
  (names.foldl (fuzzyStep messyWords) ([], 0)).1

/-- Tries to match `/practice\s*week\s*\d*/i` at the start of `s`, returning
the match length. -/
def matchPracticeWeekAt (s : List Char) : Option Nat :=
  if isPrefixOfCI "practice".toList s then
    let ws1 := (s.drop 8).takeWhile isWS
    let s1 := (s.drop 8).drop ws1.length
    if isPrefixOfCI "week".toList s1 then
      let ws2 := (s1.drop 4).takeWhile isWS
      let digits := ((s1.drop 4).drop ws2.length).takeWhile Char.isDigit
      some (8 + ws1.length + 4 + ws2.length + digits.length)
    else none
  else none

/-- Tries to match `/small\s*group/i` at the start of `s`, returning the match
length. -/
def matchSmallGroupAt (s : List Char) : Option Nat :=
  if isPrefixOfCI "small".toList s then
    let ws := (s.drop 5).takeWhile isWS
    if isPrefixOfCI "group".toList ((s.drop 5).drop ws.length) then
      some (5 + ws.length + 5)
    else none
  else none

/-- Embeds a global (`g` flag) regex replacement by the empty string:
left-to-right, non-overlapping removal of every match of `matchAt`.  The two
patterns used in the source only produce matches of positive length; a
zero-length match is treated as no match. -/
def removeAllMatches (matchAt : List Char → Option Nat) : List Char → List Char
  | [] => []
  | c :: rest =>
    match h : matchAt (c :: rest) with
    | some n =>
      if hn : 0 < n then removeAllMatches matchAt ((c :: rest).drop n)
      else c :: removeAllMatches matchAt rest
    | none => c :: removeAllMatches matchAt rest
  termination_by s => s.length
  decreasing_by
    · simp only [List.length_drop, List.length_cons]
      omega
    · simp
    · simp

/-- Embeds the no-match cleanup of the noisy game text in `App.tsx`:
`dayData.game.replace(/practice\s*week\s*\d*/gi, '').replace(/small\s*group/gi, '').trim()`. -/
def cleanNoisy (game : List Char) : List Char :=
  trim (removeAllMatches matchSmallGroupAt (removeAllMatches matchPracticeWeekAt game))

/-- The resolved `(cleanGameName, genericDesc)` pair of `generateLessonPlan`. -/
structure GameResolution where
  cleanGameName : List Char
  genericDesc : List Char
  deriving Repr, DecidableEq

/-- Embeds the game-resolution step of `generateLessonPlan`: fuzzy match over
the catalog keys of the lowercased game text; on failure, the cleaned noisy
text with the generic fallback description. -/
def resolveGame (gamesList : List (List Char × List Char)) (game : List Char) :
    GameResolution :=
  let messyGameText := lower game
  let gameMatch := findFuzzyGame (gamesList.map (·.1)) messyGameText
  if gameMatch ≠ [] then
    { cleanGameName := gameMatch, genericDesc := (recordGet gamesList gameMatch).getD [] }
  else
    { cleanGameName := cleanNoisy game,
      genericDesc := "Educational game based on curriculum targets.".toList }

/-- The mind-map entry filter of `generateLessonPlan`: reject when a week
label is known and the lowercased key does not contain it, otherwise require
the key to contain the day token. -/
def mindMapKeyMatches (currentWeekLabel targetDay key : List Char) : Bool :=
  let lowerKey := lower key
  if currentWeekLabel ≠ [] ∧ ¬ containsSub lowerKey currentWeekLabel then false
  else containsSub lowerKey targetDay

/-- Embeds `Object.entries(files.mindMap.data).find(...)` from
`generateLessonPlan`. -/
def mindMapFind (entries : List (List Char × List Char))
    (currentWeekLabel targetDay : List Char) : Option (List Char × List Char) :=
  entries.find? (fun kv => mindMapKeyMatches currentWeekLabel targetDay kv.1)

/-- Embeds the learning-target resolution of `generateLessonPlan`:
`targets = mindMapMatch?.[1] || "Learning targets for " + dayData.content`,
with `currentWeekLabel = files.calendar.week?.toLowerCase() || ""`. -/
def resolveTargets (entries : List (List Char × List Char))
    (week targetDay content : List Char) : List Char :=
  let currentWeekLabel := lower week
  match mindMapFind entries currentWeekLabel targetDay with
  | some kv => if kv.2 = [] then "Learning targets for ".toList ++ content else kv.2
  | none => "Learning targets for ".toList ++ content

end App

namespace Positional

open JsStr

/-! Embedding of the positional snapshot of `parsers.ts`:
`CalendarTableParser(ocrWords: {text, bbox{x0,y0,x1,y1}}[])`. -/

/-- Pixel-space bounding box of an OCR word. -/
structure BBox where
  x0 : ℚ
  y0 : ℚ
  x1 : ℚ
  y1 : ℚ
  deriving Repr, DecidableEq

/-- An OCR word token. -/
structure Word where
  text : List Char
  bbox : BBox
  deriving Repr, DecidableEq

/-- A row of the greedy vertical clustering: member words plus the running
union band `[y0, y1]`. -/
structure Row where
  words : List Word
  y0 : ℚ
  y1 : ℚ
  deriving Repr, DecidableEq

/-- A detected column. `isSong` embeds the optional `isSong?: boolean` flag
(absent = `undefined` = falsy). -/
structure Col where
  day : List Char
  xMin : ℚ
  xMax : ℚ
  subject : List Char
  isSong : Bool
  deriving Repr, DecidableEq

/-- A per-day record `{subject, content, game}`. -/
structure DayRecord where
  subject : List Char
  content : List Char
  game : List Char
  deriving Repr, DecidableEq

/-- The parser result `{data, song, week}`; `data` is the insertion-ordered
`Record` embedding (each day key is written at most once). -/
structure CalResult where
  data : List (List Char × DayRecord)
  song : List Char
  week : List Char
  deriving Repr, DecidableEq

/-- Day-name list of the positional parser (starts at `sunday`). -/
def days : List (List Char) :=
  ["sunday".toList, "monday".toList, "tuesday".toList, "wednesday".toList,
   "thursday".toList, "friday".toList, "saturday".toList]

/-- The 3-letter abbreviation table, in source order. -/
def abbreviations : List (List Char × List Char) :=
  [("sun".toList, "sunday".toList), ("mon".toList, "monday".toList),
   ("tue".toList, "tuesday".toList), ("wed".toList, "wednesday".toList),
   ("thu".toList, "thursday".toList), ("fri".toList, "friday".toList),
   ("sat".toList, "saturday".toList)]

/-- `abbreviations[clean]`: lookup of an exact abbreviation key. -/
def lookupAbbr (s : List Char) : Option (List Char) :=
  (abbreviations.find? (fun ab => ab.1 = s)).map (·.2)

/-- Comparison key of `ocrWords.sort((a, b) => a.bbox.y0 - b.bbox.y0)`. -/
def wordLeY (a b : Word) : Prop := a.bbox.y0 ≤ b.bbox.y0

instance : DecidableRel wordLeY :=
  fun a b => inferInstanceAs (Decidable (a.bbox.y0 ≤ b.bbox.y0))

/-- Comparison key of `r.words.sort((a, b) => a.bbox.x0 - b.bbox.x0)`. -/
def wordLeX (a b : Word) : Prop := a.bbox.x0 ≤ b.bbox.x0

instance : DecidableRel wordLeX :=
  fun a b => inferInstanceAs (Decidable (a.bbox.x0 ≤ b.bbox.x0))

/-- Comparison key of `cols.sort((a, b) => a.xMin - b.xMin)`. -/
def colLeXMin (a b : Col) : Prop := a.xMin ≤ b.xMin

instance : DecidableRel colLeXMin :=
  fun a b => inferInstanceAs (Decidable (a.xMin ≤ b.xMin))

/-- The input words sorted by `bbox.y0` (JS `Array.prototype.sort` is stable;
`List.insertionSort` is the stable sort for this key).  The JS sort is in
place, so every later read of `ocrWords` sees this order. -/
def sortedWordsOf (ocrWords : List Word) : List Word :=
  List.insertionSort wordLeY ocrWords

/-- Vertical midpoint of a word, `(bbox.y0 + bbox.y1) / 2`. -/
def midY (w : Word) : ℚ := (w.bbox.y0 + w.bbox.y1) / 2

/-- Horizontal midpoint of a word, `(bbox.x0 + bbox.x1) / 2`. -/
def midX (w : Word) : ℚ := (w.bbox.x0 + w.bbox.x1) / 2

/-- One step of the greedy row clustering: the word joins the first row whose
band contains its vertical midpoint (widening the band), otherwise a fresh row
is appended at the end. -/
def addWordToRows (w : Word) : List Row → List Row
  | [] => [{ words := [w], y0 := w.bbox.y0, y1 := w.bbox.y1 }]
  | r :: rs =>
    if midY w ≥ r.y0 ∧ midY w ≤ r.y1 then
      { words := r.words ++ [w], y0 := min r.y0 w.bbox.y0,
        y1 := max r.y1 w.bbox.y1 } :: rs
    else r :: addWordToRows w rs

/-- Embeds step 1 of `CalendarTableParser`: cluster the y-sorted words into
rows, then sort each row's words by `x0`. -/
def clusterRows (ocrWords : List Word) : List Row :=
  (((sortedWordsOf ocrWords).foldl (fun rows w => addWordToRows w rows) []).map
    fun r => { r with words := List.insertionSort wordLeX r.words })

/-- The lowercased space-joined text of a row, as used by the header test. -/
def rowText (r : Row) : List Char :=
  joinSpace (r.words.map (fun w => lower w.text))

/-- Header test of step 2: the row's joined text contains a day name or (as a
plain substring) an abbreviation. -/
def rowHasDay (r : Row) : Bool :=
  days.any (fun d => containsSub (rowText r) d)
    || (abbreviations.map (·.1)).any (fun ab => containsSub (rowText r) ab)

/-- Embeds `headerRowIndices` of step 2. -/
def headerRowIndicesOf (ocrWords : List Word) : List Nat :=
  (((clusterRows ocrWords).enum).filter (fun p => rowHasDay p.2)).map (·.1)

/-- Embeds `headerWords`: all words of the rows from the first through the
last header row (`rows.slice(firstHeader, lastHeader + 1)`). -/
def headerWordsOf (ocrWords : List Word) : List Word :=
  let rows := clusterRows ocrWords
  let idxs := headerRowIndicesOf ocrWords
  let firstHeader := idxs.headD 0
  let lastHeader := idxs.getLastD 0
  ((rows.drop firstHeader).take (lastHeader + 1 - firstHeader)).flatMap Row.words

/-- The space-joined raw text of the (sorted) word list, step 3's `allText`. -/
def allTextOf (sortedWords : List Word) : List Char :=
  joinSpace (sortedWords.map (·.text))

/-- Tries to match `/week\s*([1-8])\b/i` at the start of `s`, returning the
captured digit. -/
def matchWeekDigitAt (s : List Char) : Option Char :=
  if isPrefixOfCI "week".toList s then
    match (s.drop 4).dropWhile isWS with
    | [] => none
    | d :: rest2 =>
      if '1' ≤ d ∧ d ≤ '8' then
        match rest2 with
        | [] => some d
        | e :: _ => if isWordChar e then none else some d
      else none
  else none

/-- Leftmost match of `/week\s*([1-8])\b/i` over the whole text. -/
def scanWeekPrimary : List Char → Option Char
  | [] => none
  | c :: rest =>
    match matchWeekDigitAt (c :: rest) with
    | some d => some d
    | none => scanWeekPrimary rest

/-- `/\b[1-8]\b/.test(s)` with the running previous-character word flag. -/
def hasBareDigit18Aux : Bool → List Char → Bool
  | _, [] => false
  | prevW, c :: rest =>
    (decide ('1' ≤ c ∧ c ≤ '8') && !prevW &&
        (match rest with | [] => true | e :: _ => !(isWordChar e)))
      || hasBareDigit18Aux (isWordChar c) rest

/-- Embeds `/\b[1-8]\b/.test(w.text)`. -/
def hasBareDigit18 (s : List Char) : Bool := hasBareDigit18Aux false s

/-- Embeds step 3, the week detection, over the sorted word list: primary
regex `/week\s*([1-8])\b/i` over `allText`; fallback: around the first token
containing `week`, the window `slice(max(0, idx - 2), idx + 5)` is searched
for a token passing `/\b[1-8]\b/`, whose whole text is interpolated. -/
def weekExtract (sortedWords : List Word) : List Char :=
  let allText := allTextOf sortedWords
  match scanWeekPrimary allText with
  | some d => "WEEK ".toList ++ [d]
  | none =>
    match sortedWords.findIdx? (fun w => containsSub (lower w.text) "week".toList) with
    | some idx =>
      let near := ((sortedWords.drop (idx - 2)).take (idx + 5 - (idx - 2)))
      match near.find? (fun w => hasBareDigit18 w.text) with
      | some num => "WEEK ".toList ++ num.text
      | none => []
    | none => []

/-- `word.text.toLowerCase().replace(/[^a-z]/g, '')`. -/
def keepAlpha (s : List Char) : List Char :=
  (lower s).filter (fun c => 'a' ≤ c ∧ c ≤ 'z')

/-- One step of the column-opening fold of step 4 over `headerWords`. -/
def buildColsStep (cols : List Col) (w : Word) : List Col :=
  let clean := keepAlpha w.text
  let dayMatch : Option (List Char) :=
    match days.find? (fun d => clean = d) with
    | some d => some d
    | none => lookupAbbr clean
  let pushSong : List Col → List Col := fun cs =>
    if containsSub clean "song".toList ∧ ¬ cs.any (·.isSong) then
      cs ++ [{ day := "song".toList, xMin := w.bbox.x0, xMax := w.bbox.x1,
               subject := [], isSong := true }]
    else cs
  match dayMatch with
  | some d =>
    if ¬ cols.any (fun c => c.day = d) then
      cols ++ [{ day := d, xMin := w.bbox.x0, xMax := w.bbox.x1,
                 subject := [], isSong := false }]
    else pushSong cols
  | none => pushSong cols

/-- The falsy-guarded next-column bound of the second attach lookup:
`cols[i + 1]?.xMin || 10000` (note JS `||`: an `xMin` of `0` is falsy and
yields `10000`). -/
def findIdxNextBound (mid : ℚ) : List Col → Option Nat
  | [] => none
  | _ :: rest =>
    let bound : ℚ :=
      match rest.head? with
      | some c2 => if c2.xMin = 0 then 10000 else c2.xMin
      | none => 10000
    if mid < bound then some 0
    else (findIdxNextBound mid rest).map (· + 1)

/-- One step of the subject-attachment fold of step 4: a non-day, non-song
header word longer than 2 characters is appended to the subject of the first
column whose padded range contains its midpoint (else the first column whose
next neighbour starts beyond it), which is also widened to cover the word. -/
def attachStep (cols : List Col) (w : Word) : List Col :=
  let clean := keepAlpha w.text
  let isDayOrSong : Bool :=
    days.any (fun d => clean = d) || (lookupAbbr clean).isSome
      || containsSub clean "song".toList
  if ¬ isDayOrSong ∧ w.text.length > 2 then
    let mid := midX w
    let target? : Option Nat :=
      match cols.findIdx? (fun c => mid ≥ c.xMin - 15 ∧ mid ≤ c.xMax + 15) with
      | some i => some i
      | none => findIdxNextBound mid cols
    match target? with
    | some i =>
      match cols.get? i with
      | some c =>
        if ¬ c.isSong then
          cols.set i
            { c with
              subject := if c.subject = [] then w.text else c.subject ++ ' ' :: w.text,
              xMin := min c.xMin w.bbox.x0,
              xMax := max c.xMax w.bbox.x1 }
        else cols
      | none => cols
    | none => cols
  else cols

/-- The column list of step 4 before boundary closing: open day/song columns
from the header words, sort by `xMin`, then attach subject words. -/
def rawColsOf (ocrWords : List Word) : List Col :=
  let hw := headerWordsOf ocrWords
  let opened := hw.foldl buildColsStep []
  let sorted := List.insertionSort colLeXMin opened
  hw.foldl attachStep sorted

/-- Embeds the boundary-closing loop of step 4: each adjacent pair meets at
the midpoint of the previous `xMax` and next `xMin`; the last column's `xMax`
becomes the `10000` sentinel. -/
def closeCols : List Col → List Col
  | [] => []
  | [c] => [{ c with xMax := 10000 }]
  | c :: c' :: rest =>
    let m := (c.xMax + c'.xMin) / 2
    { c with xMax := m } :: closeCols ({ c' with xMin := m } :: rest)
  termination_by cs => cs.length
  decreasing_by simp

/-- The closed column list of `CalendarTableParser`. -/
def closedColsOf (ocrWords : List Word) : List Col :=
  closeCols (rawColsOf ocrWords)

/-- The content-extraction membership test of step 5: the word's horizontal
midpoint lies in `[xMin, xMax]` (both bounds inclusive). -/
def colContainsX (c : Col) (x : ℚ) : Bool := x ≥ c.xMin ∧ x ≤ c.xMax

/-- The rows strictly below the header zone, `rows.slice(lastHeader + 1)`. -/
def contentRowsOf (ocrWords : List Word) : List Row :=
  (clusterRows ocrWords).drop ((headerRowIndicesOf ocrWords).getLastD 0 + 1)

/-- Embeds the per-column content assembly of step 5. -/
def colContent (contentRows : List Row) (c : Col) : List Char :=
  joinSpace
    ((contentRows.flatMap fun r =>
        r.words.filter (fun w => colContainsX c (midX w))).map (·.text))

/-- The mojibake character class of the subject cleanup
`col.subject.replace(/[-â€”|:\[\]]/g, '')` (the source file stores the em dash
as the three bytes `â`, `€`, `”`). -/
def subjectNoise : List Char := ['-', 'â', '€', '”', '|', ':', '[', ']']

/-- `col.subject.replace(/[-â€”|:\[\]]/g, '').trim()`. -/
def cleanSubject (s : List Char) : List Char :=
  trim (s.filter (fun c => ¬ subjectNoise.contains c))

/-- One step of the step-5 fold over the closed columns: a song column whose
content is non-empty and longer than 3 characters overwrites the song state;
any other column appends its day record. -/
def extractStep (contentRows : List Row)
    (st : List (List Char × DayRecord) × List Char) (c : Col) :
    List (List Char × DayRecord) × List Char :=
  let content := colContent contentRows c
  if c.isSong then
    if content ≠ [] ∧ content.length > 3 then (st.1, content) else st
  else
    (st.1 ++
      [(c.day,
        { subject := if cleanSubject c.subject = [] then "Vocabulary".toList
                     else cleanSubject c.subject,
          content := content, game := content })],
     st.2)

/-- Embeds the positional `CalendarTableParser` end to end. -/
def CalendarTableParser (ocrWords : List Word) : CalResult :=
  if ocrWords = [] then { data := [], song := [], week := [] }
  else
    let sortedWords := sortedWordsOf ocrWords
    let headerRowIndices := headerRowIndicesOf ocrWords
    if headerRowIndices = [] then { data := [], song := [], week := [] }
    else
      let allText := allTextOf sortedWords
      let extractedWeek := weekExtract sortedWords
      let cols := closedColsOf ocrWords
      let contentRows := contentRowsOf ocrWords
      let st := cols.foldl (extractStep contentRows) ([], "Song of the Week".toList)
      let pasted : DayRecord :=
        { subject := "Pasted Content".toList, content := allText, game := allText }
      let data1 :=
        if st.1 = [] then
          days.foldl
            (fun acc day =>
              if containsSub (lower allText) day then acc ++ [(day, pasted)] else acc)
            []
        else st.1
      let data2 := if data1 = [] then [("monday".toList, pasted)] else data1
      { data := data2, song := st.2, week := extractedWeek }

end Positional

namespace Textual

open JsStr

/-! Embedding of the text-based `CalendarTableParser(ocrText: string)` from
the current `parsers.ts`. -/

/-- A per-day record `{subject, content, game}`. -/
structure DayRecord where
  subject : List Char
  content : List Char
  game : List Char
  deriving Repr, DecidableEq

/-- The parser result `{data, song, week}` (`data` insertion-ordered). -/
structure CalResult where
  data : List (List Char × DayRecord)
  song : List Char
  week : List Char
  deriving Repr, DecidableEq

/-- Day-name list of the text parser (starts at `monday`). -/
def days : List (List Char) :=
  ["monday".toList, "tuesday".toList, "wednesday".toList, "thursday".toList,
   "friday".toList, "saturday".toList, "sunday".toList]

/-- The abbreviation table of the text parser, in source order. -/
def abbreviations : List (List Char × List Char) :=
  [("mon".toList, "monday".toList), ("tue".toList, "tuesday".toList),
   ("wed".toList, "wednesday".toList), ("thu".toList, "thursday".toList),
   ("fri".toList, "friday".toList), ("sat".toList, "saturday".toList),
   ("sun".toList, "sunday".toList)]

/-- Embeds ASCII `String.prototype.toUpperCase`. -/
def upper (s : List Char) : List Char := s.map Char.toUpper

/-- `lower.includes('small group') || lower.includes('song of the week') ||
lower.includes('weekly') || lower.length < 2` — the metadata-noise filter. -/
def isMetadata (text : List Char) : Bool :=
  let lowerT := lower text
  containsSub lowerT "small group".toList
    || containsSub lowerT "song of the week".toList
    || containsSub lowerT "weekly".toList
    || lowerT.length < 2

/-- Embeds a first-occurrence (`i` flag, non-global) regex replacement by the
empty string, given a match-length function; a zero-length match leaves the
string unchanged, as removing the empty string does in JS. -/
def removeFirstMatch (matchAt : List Char → Option Nat) : List Char → List Char
  | [] => []
  | c :: rest =>
    match matchAt (c :: rest) with
    | some n => (c :: rest).drop n
    | none => c :: removeFirstMatch matchAt rest

/-- Tries `/song\s*:?/i` at the start of `s`, returning the match length. -/
def matchSongColonAt (s : List Char) : Option Nat :=
  if isPrefixOfCI "song".toList s then
    let ws := (s.drop 4).takeWhile isWS
    let colon := match (s.drop 4).drop ws.length with
      | ':' :: _ => 1
      | _ => 0
    some (4 + ws.length + colon)
  else none

/-- Tries `/sing\s*:?/i` at the start of `s`, returning the match length. -/
def matchSingColonAt (s : List Char) : Option Nat :=
  if isPrefixOfCI "sing".toList s then
    let ws := (s.drop 4).takeWhile isWS
    let colon := match (s.drop 4).drop ws.length with
      | ':' :: _ => 1
      | _ => 0
    some (4 + ws.length + colon)
  else none

/-- Tries `/week\s*\d+/i` at the start of `s`, returning the match length
(greedy whitespace, at least one digit). -/
def matchWeekNumLenAt (s : List Char) : Option Nat :=
  if isPrefixOfCI "week".toList s then
    let ws := (s.drop 4).takeWhile isWS
    let digits := ((s.drop 4).drop ws.length).takeWhile Char.isDigit
    if digits ≠ [] then some (4 + ws.length + digits.length) else none
  else none

/-- Leftmost match of `/week\s*\d+/i`, returning the matched substring. -/
def scanWeekNum : List Char → Option (List Char)
  | [] => none
  | c :: rest =>
    match matchWeekNumLenAt (c :: rest) with
    | some n => some ((c :: rest).take n)
    | none => scanWeekNum rest

/-- Embeds a global case-insensitive replacement of a plain pattern by the
empty string (`.replace(new RegExp(day, 'gi'), '')`): left-to-right,
non-overlapping removal. -/
def removeAllSubCI (pat : List Char) (s : List Char) : List Char :=
  if hp : pat = [] then s
  else
    match s with
    | [] => []
    | c :: rest =>
      if isPrefixOfCI pat (c :: rest) then
        removeAllSubCI pat ((c :: rest).drop pat.length)
      else c :: removeAllSubCI pat rest
  termination_by s.length
  decreasing_by
    · have : 0 < pat.length := List.length_pos.mpr hp
      simp only [List.length_drop, List.length_cons]
      omega
    · simp

/-- Word-boundary test after a match of an alphabetic pattern: the next
character, when present, must not be a word character. -/
def boundaryAfter (s : List Char) (n : Nat) : Bool :=
  match s.drop n with
  | [] => true
  | e :: _ => !(isWordChar e)

/-- Embeds `new RegExp('\\b' + abbr + '\\b', 'gi').replace(..., '')` for an
alphabetic `abbr`: removal of every word-boundary-delimited occurrence.  The
previous-character flag carries the left `\b` context; after a removal the
pattern's own last (word) character is the new left context. -/
def removeAllWordCIAux (pat : List Char) : Bool → List Char → List Char
  | _, [] => []
  | prevW, c :: rest =>
    if hp : pat = [] then c :: rest
    else
      if !prevW && isPrefixOfCI pat (c :: rest) && boundaryAfter (c :: rest) pat.length then
        removeAllWordCIAux pat true ((c :: rest).drop pat.length)
      else c :: removeAllWordCIAux pat (isWordChar c) rest
  termination_by _ s => s.length
  decreasing_by
    · have : 0 < pat.length := List.length_pos.mpr hp
      simp only [List.length_drop, List.length_cons]
      omega
    · simp

/-- Global word-boundary-delimited case-insensitive removal. -/
def removeAllWordCI (pat : List Char) (s : List Char) : List Char :=
  removeAllWordCIAux pat false s

/-- Embeds `new RegExp('\\b' + abbr + '\\b', 'i').test(s)`. -/
def hasWordCIAux (pat : List Char) : Bool → List Char → Bool
  | _, [] => false
  | prevW, c :: rest =>
    (!prevW && isPrefixOfCI pat (c :: rest) && boundaryAfter (c :: rest) pat.length)
      || hasWordCIAux pat (isWordChar c) rest

/-- `/\bpat\b/i.test(s)` for an alphabetic `pat`. -/
def hasWordCI (pat : List Char) (s : List Char) : Bool := hasWordCIAux pat false s

/-- Index of the first `/\bpat\b/i` match (the `regex.exec` position used for
abbreviation columns). -/
def firstWordIdxCIAux (pat : List Char) : Bool → Nat → List Char → Option Nat
  | _, _, [] => none
  | prevW, i, c :: rest =>
    if !prevW && isPrefixOfCI pat (c :: rest) && boundaryAfter (c :: rest) pat.length then
      some i
    else firstWordIdxCIAux pat (isWordChar c) (i + 1) rest

/-- Index of the first `/\bpat\b/i` match in `s`. -/
def firstWordIdxCI (pat : List Char) (s : List Char) : Option Nat :=
  firstWordIdxCIAux pat false 0 s

/-- `s.replace(/[-—|]/g, '')`. -/
def stripDashes (s : List Char) : List Char :=
  s.filter (fun c => ¬ (['-', '—', '|'] : List Char).contains c)

/-- `s.replace(/^[^a-z0-9]+|[^a-z0-9]+$/gi, '')`: strip the leading and the
trailing run of non-alphanumeric characters. -/
def stripEdges (s : List Char) : List Char :=
  ((s.dropWhile (fun c => !(isAlnum c))).reverse.dropWhile (fun c => !(isAlnum c))).reverse

/-- Strip every full day name (`subject.replace(new RegExp(d, 'gi'), '')`,
applied for each day in order). -/
def stripDayNames (s : List Char) : List Char :=
  days.foldl (fun acc d => removeAllSubCI d acc) s

/-- Strip every abbreviation as a word
(`subject.replace(new RegExp('\\b' + abbr + '\\b', 'gi'), '')`, each in order). -/
def stripAbbrWords (s : List Char) : List Char :=
  abbreviations.foldl (fun acc ab => removeAllWordCI ab.1 acc) s

/-- Embeds the `presentDays` detection: full day names by `indexOf` over the
lowercased header, then abbreviations by first word-boundary match, skipped
when the day is already present. -/
def presentDaysOf (lowerHeader : List Char) : List (List Char × Nat) :=
  let fromFull :=
    days.foldl
      (fun acc day =>
        match indexOfSub lowerHeader day with
        | some start => acc ++ [(day, start)]
        | none => acc)
      []
  abbreviations.foldl
    (fun acc ab =>
      if acc.any (fun pd => pd.1 = ab.2) then acc
      else
        match firstWordIdxCI ab.1 lowerHeader with
        | some start => acc ++ [(ab.2, start)]
        | none => acc)
    fromFull

/-- Comparison key of `presentDays.sort((a, b) => a.start - b.start)`. -/
def pdLeStart (a b : List Char × Nat) : Prop := a.2 ≤ b.2

instance : DecidableRel pdLeStart :=
  fun a b => inferInstanceAs (Decidable (a.2 ≤ b.2))

/-- The column-path subject span for a `[start, stop)` slice of the header
line: strip dashes, trim, strip day names, strip abbreviation words, strip
non-alphanumeric edges, trim. -/
def subjectSpan (headerLine : List Char) (start stop : Nat) : List Char :=
  trim (stripEdges (stripAbbrWords (stripDayNames
    (trim (stripDashes ((headerLine.drop start).take (stop - start)))))))

/-- The column-path content span for a `[start, stop)` slice of the content
line: strip dashes, trim. -/
def contentSpan (contentLine : List Char) (start stop : Nat) : List Char :=
  trim (stripDashes ((contentLine.drop start).take (stop - start)))

/-- The column-path record guard and constructor: a day is recorded unless
both its subject and its content are metadata; an empty subject defaults to
`Vocabulary`; metadata content is blanked. -/
def mkColumnDay (day subject content : List Char) :
    List (List Char × DayRecord) :=
  if ¬ isMetadata subject ∨ ¬ isMetadata content then
    [(day,
      { subject := if subject = [] then "Vocabulary".toList else subject,
        content := if isMetadata content then [] else content,
        game := if isMetadata content then [] else content })]
  else []

/-- The `presentDays.sort(...).forEach((pd, index) => ...)` loop: each day's
slice runs from its own start to the next day's start (or the end of the
header line). -/
def dayRecordsAux (headerLine contentLine : List Char) :
    List (List Char × Nat) → List (List Char × DayRecord)
  | [] => []
  | pd :: rest =>
    let start := pd.2
    let stop := match rest.head? with
      | some nxt => nxt.2
      | none => headerLine.length
    mkColumnDay pd.1 (subjectSpan headerLine start stop)
        (contentSpan contentLine start stop)
      ++ dayRecordsAux headerLine contentLine rest

/-- The row-based fallback path (`headerLineIndex === -1`): for each day, find
its line, strip day tokens from it as the subject (replaced by the next line
when the result is metadata), and join the following three lines as content. -/
def rowPath (lines : List (List Char)) : List (List Char × DayRecord) :=
  days.foldl
    (fun acc day =>
      let dayIndex? : Option Nat :=
        match lines.findIdx? (fun l => containsSub (lower l) day) with
        | some i => some i
        | none =>
          match abbreviations.find? (fun ab => ab.2 = day) with
          | some ab => lines.findIdx? (fun l => hasWordCI ab.1 l)
          | none => none
      match dayIndex? with
      | some dayIndex =>
        let subject0 :=
          stripAbbrWords (stripDayNames (trim (stripDashes (lines.getD dayIndex []))))
        let subject :=
          if isMetadata subject0 then lines.getD (dayIndex + 1) "General".toList
          else subject0
        let row2Text := joinSpace ((lines.drop (dayIndex + 1)).take 3)
        acc ++ [(day, { subject := trim subject, content := row2Text, game := row2Text })]
      | none => acc)
    []

/-- Embeds the text-based `CalendarTableParser` end to end. -/
def CalendarTableParser (ocrText : List Char) : CalResult :=
  let lines := ((splitOnChar '\n' ocrText).map trim).filter (fun l => l.length > 2)
  let headerLines := lines.take 10
  let extractedSong :=
    match headerLines.find? (fun l =>
        containsSub (lower l) "song".toList || containsSub (lower l) "sing".toList) with
    | some songLine =>
      let cand := trim (removeFirstMatch matchSingColonAt
        (removeFirstMatch matchSongColonAt songLine))
      if cand = [] then songLine else cand
    | none => "Song of the Week".toList
  let extractedWeek :=
    match headerLines.find? (fun l => (scanWeekNum l).isSome) with
    | some weekLine => (scanWeekNum weekLine).elim [] upper
    | none => []
  let headerLineIndex? := lines.findIdx? (fun line =>
    days.any (fun d => containsSub (lower line) d)
      || abbreviations.any (fun ab => hasWordCI ab.1 (lower line)))
  let calendarData :=
    match headerLineIndex? with
    | some headerLineIndex =>
      let headerLine := lines.getD headerLineIndex []
      let contentLine := lines.getD (headerLineIndex + 1) []
      let presentDays := List.insertionSort pdLeStart (presentDaysOf (lower headerLine))
      dayRecordsAux headerLine contentLine presentDays
    | none => rowPath lines
  let data :=
    if calendarData = [] ∧ lines.length > 0 then
      [("monday".toList,
        { subject := "Pasted Content".toList, content := ocrText, game := ocrText })]
    else calendarData
  { data := data, song := extractedSong, week := extractedWeek }

end Textual

namespace Positional

open JsStr

/-- Follows claim C7's wording (not the source): its asserted primary pattern
`/week\s*(\d+)/i`, tried at the start of `s`, returning the captured digit
run. -/
def matchWeekClaimAt (s : List Char) : Option (List Char) :=
  if isPrefixOfCI "week".toList s then
    let digits := ((s.drop 4).dropWhile isWS).takeWhile Char.isDigit
    if digits ≠ [] then some digits else none
  else none

/-- Follows claim C7's wording (not the source): leftmost match of
`/week\s*(\d+)/i` over the full text, returning the captured number. -/
def scanWeekClaim : List Char → Option (List Char)
  | [] => none
  | c :: rest =>
    match matchWeekClaimAt (c :: rest) with
    | some d => some d
    | none => scanWeekClaim rest

/-- Builder for concrete OCR word inputs. -/
def mkW (t : String) (x0 y0 x1 y1 : ℚ) : Word :=
  { text := t.toList, bbox := { x0 := x0, y0 := y0, x1 := x1, y1 := y1 } }

/-- Concrete input for claim C1: a header row `Monday | Tuesday` whose closed
columns are `[100, 250]` and `[250, 10000]`. -/
def cxColsWords : List Word :=
  [mkW "Monday" 100 0 200 10, mkW "Tuesday" 300 0 400 10]

/-- Concrete input for claim C7: header plus the tokens `Week 9`. -/
def cxWeek9Words : List Word :=
  [mkW "Monday" 100 0 200 10, mkW "Week" 100 20 150 30, mkW "9" 160 20 170 30]

/-- Concrete input for claim C7: header plus the tokens `Week 3`. -/
def demoWeek3Words : List Word :=
  [mkW "Monday" 100 0 200 10, mkW "Week" 100 20 150 30, mkW "3" 160 20 170 30]

/-- Concrete input for claim C7: a digit token two positions before the
`week` token. -/
def demoPre3Words : List Word :=
  [mkW "3" 10 0 20 10, mkW "week" 30 0 40 10, mkW "Monday" 100 0 200 10]

/-- Concrete input for claim C8: a `Song` column whose content exceeds three
characters. -/
def demoSongWords : List Word :=
  [mkW "Song" 500 0 560 10, mkW "Monday" 100 0 200 10,
   mkW "Twinkle Twinkle" 480 20 580 30, mkW "Counting" 120 20 180 30]

/-- Concrete input for claim C2's witness: overlapping and separate bands,
out of x-order. -/
def demoClusterWords : List Word :=
  [mkW "b" 50 0 60 10, mkW "a" 10 1 20 9, mkW "c" 0 20 10 30]

/-- `wordLeY` is total (totality of `≤` on `ℚ`). -/
instance : IsTotal Word wordLeY := ⟨fun a b => le_total a.bbox.y0 b.bbox.y0⟩

/-- `wordLeY` is transitive. -/
instance : IsTrans Word wordLeY := ⟨fun _ _ _ h h' => le_trans h h'⟩

/-- `wordLeX` is total. -/
instance : IsTotal Word wordLeX := ⟨fun a b => le_total a.bbox.x0 b.bbox.x0⟩

/-- `wordLeX` is transitive. -/
instance : IsTrans Word wordLeX := ⟨fun _ _ _ h h' => le_trans h h'⟩

end Positional

/-!
## Theorems

The `unseal` below re-enables kernel reduction for the well-founded
definitions above and the rational/gcd primitives, so that concrete runs of
the embedded functions can be settled by `decide`.
-/

unseal Rat.mul Rat.inv Rat.add Rat.sub Nat.gcd JsStr.splitWSAux JsStr.replaceAll
  Textual.removeAllSubCI Textual.removeAllWordCIAux App.removeAllMatches
  Positional.closeCols

/-- Helper: a successful `find?` returns the first element satisfying the
predicate. -/
theorem find?_first_char {α : Type} (p : α → Bool) :
    ∀ (l : List α) (a : α), l.find? p = some a →
      ∃ i, l.get? i = some a ∧ p a = true ∧
        ∀ j b, j < i → l.get? j = some b → p b = false := by
  intro l
  induction l with
  | nil => intro a h; simp [List.find?] at h
  | cons x xs ih =>
    intro a h
    by_cases hx : p x
    · rw [List.find?_cons, hx] at h
      obtain rfl : x = a := by simpa using h
      exact ⟨0, rfl, hx, fun j b hj => by omega⟩
    · rw [List.find?_cons, Bool.of_not_eq_true hx] at h
      obtain ⟨i, hget, hpa, hfirst⟩ := ih a h
      refine ⟨i + 1, by simpa using hget, hpa, ?_⟩
      intro j b hj hb
      match j with
      | 0 =>
        obtain rfl : x = b := by simpa using hb
        exact Bool.of_not_eq_true hx
      | j + 1 => exact hfirst j b (by omega) (by simpa using hb)

/-- Claim C6: `GetSpiralReviewItems` on the empty list returns the no-items
sentinel without raising and with `nextIndex` frozen at 0; on a non-empty
list of length `L` with any cursor `c` it returns
`oldest = list[L - 1 - (c mod L)]` and `nextIndex = c + 1`, so cursors `c` and
`c + L` select the same oldest element. -/
theorem claim_C6 (list : List (List Char)) (c r : Nat) (h : list ≠ []) :
    Textual.GetSpiralReviewItems [] c r =
      { sentence := some "No review items available.".toList,
        oldest := none, recent := none, nextIndex := 0 } ∧
    (Textual.GetSpiralReviewItems list c r).oldest =
      list.get? (list.length - 1 - c % list.length) ∧
    (Textual.GetSpiralReviewItems list c r).nextIndex = c + 1 ∧
    (Textual.GetSpiralReviewItems list (c + list.length) r).oldest =
      (Textual.GetSpiralReviewItems list c r).oldest := by
  have hL : ¬ list.length = 0 := by simpa [List.length_eq_zero] using h
  refine ⟨rfl, ?_, ?_, ?_⟩ <;>
    simp [Textual.GetSpiralReviewItems, hL, Nat.add_mod_right]

/-- Witness for claim C6: list `["a", "b"]`, cursor 3 selects index
`2 - 1 - 3 % 2 = 0`. -/
theorem claim_C6_witness :
    (Textual.GetSpiralReviewItems ["a".toList, "b".toList] 3 0).oldest =
      some "a".toList :=
  ((claim_C6 ["a".toList, "b".toList] 3 0 (by decide)).2.1).trans (by decide)

/-- Helper: `replaceAll` is the identity when the pattern does not occur. -/
theorem replaceAll_of_not_contains (pat rep : List Char) :
    ∀ s : List Char, JsStr.containsSub s pat = false →
      JsStr.replaceAll s pat rep = s := by
  intro s
  induction s with
  | nil =>
    intro _
    unfold JsStr.replaceAll
    split <;> rfl
  | cons c rest ih =>
    intro h
    have hpat : ¬ pat = [] := by
      intro he
      subst he
      simp [JsStr.containsSub, List.isPrefixOf] at h
    simp only [JsStr.containsSub, Bool.or_eq_false_iff] at h
    unfold JsStr.replaceAll
    rw [dif_neg hpat]
    simp only [h.1, Bool.false_eq_true, if_false, List.cons.injEq, true_and]
    exact ih h.2

/-- Helper: one substitution pass is the identity on a text containing no
placeholder of the map. -/
theorem substitutePlaceholders_id :
    ∀ (data : List (List Char × List Char)) (t : List Char),
      (∀ kv ∈ data, JsStr.containsSub t (Textual.placeholder kv.1) = false) →
      Textual.substitutePlaceholders data t = t := by
  intro data
  induction data with
  | nil => intro t _; rfl
  | cons kv rest ih =>
    intro t h
    show List.foldl _ _ _ = t
    rw [List.foldl_cons, replaceAll_of_not_contains _ _ _ (h kv (by simp))]
    exact ih t (fun kv' hkv' => h kv' (List.mem_cons_of_mem _ hkv'))

/-- Claim C9 (amended): the sequential `replaceAll` pass of
`TemplateProcessor` is idempotent whenever the once-substituted text contains
no remaining `\x7b\x7bkey\x7d\x7d` placeholder of the map — the claim's
original side condition (no `\x7b\x7b...\x7d\x7d`-shaped value) does not
suffice, see the counterexample. -/
theorem claim_C9 (data : List (List Char × List Char)) (text : List Char)
    (h : ∀ kv ∈ data,
      JsStr.containsSub (Textual.substitutePlaceholders data text)
        (Textual.placeholder kv.1) = false) :
    Textual.substitutePlaceholders data (Textual.substitutePlaceholders data text) =
      Textual.substitutePlaceholders data text :=
  substitutePlaceholders_id data _ h

/-- Witness for claim C9: map `a ↦ x` over `\x7b\x7ba\x7d\x7d b`. -/
theorem claim_C9_witness :
    Textual.substitutePlaceholders [("a".toList, "x".toList)]
        (Textual.substitutePlaceholders [("a".toList, "x".toList)]
          "\x7b\x7ba\x7d\x7d b".toList) =
      Textual.substitutePlaceholders [("a".toList, "x".toList)]
        "\x7b\x7ba\x7d\x7d b".toList :=
  claim_C9 _ _ (by decide)

/-- Counterexample to claim C9 as stated: the map `a ↦ \x7b` has no
`\x7b\x7b...\x7d\x7d`-shaped value, yet substitution into
`\x7b\x7b\x7ba\x7d\x7da\x7d\x7d` is not idempotent (one pass yields
`\x7b\x7ba\x7d\x7d`, a second collapses it to `\x7b`). -/
theorem claim_C9_cx :
    Textual.hasPlaceholderShape ['\x7b'] = false ∧
    Textual.substitutePlaceholders [("a".toList, ['\x7b'])]
        (Textual.substitutePlaceholders [("a".toList, ['\x7b'])]
          "\x7b\x7b\x7ba\x7d\x7da\x7d\x7d".toList) ≠
      Textual.substitutePlaceholders [("a".toList, ['\x7b'])]
        "\x7b\x7b\x7ba\x7d\x7da\x7d\x7d".toList := by
  decide

/-- Helper: splitting on an absent separator returns the whole string. -/
theorem splitOnChar_of_not_mem (sep : Char) :
    ∀ s : List Char, sep ∉ s → JsStr.splitOnChar sep s = [s] := by
  intro s
  induction s with
  | nil => intro _; rfl
  | cons c rest ih =>
    intro h
    have hc : ¬ c = sep := fun he => h (he ▸ List.mem_cons_self c rest)
    unfold JsStr.splitOnChar
    rw [if_neg hc, ih (fun hm => h (List.mem_cons_of_mem _ hm))]

/-- Helper: splitting peels off a separator-free first field. -/
theorem splitOnChar_append (sep : Char) :
    ∀ (a rest : List Char), sep ∉ a →
      JsStr.splitOnChar sep (a ++ sep :: rest) = a :: JsStr.splitOnChar sep rest := by
  intro a
  induction a with
  | nil =>
    intro rest _
    show JsStr.splitOnChar sep (sep :: rest) = _
    conv_lhs => unfold JsStr.splitOnChar
    rw [if_pos rfl]
  | cons c a' ih =>
    intro rest h
    have hc : ¬ c = sep := fun he => h (he ▸ List.mem_cons_self c a')
    show JsStr.splitOnChar sep (c :: (a' ++ sep :: rest)) = _
    conv_lhs => unfold JsStr.splitOnChar
    rw [if_neg hc, ih rest (fun hm => h (List.mem_cons_of_mem _ hm))]

/-- Helper: `includes` holds for a single present character. -/
theorem containsSub_singleton (x : Char) :
    ∀ s : List Char, x ∈ s → JsStr.containsSub s [x] = true := by
  intro s
  induction s with
  | nil => intro h; cases h
  | cons c rest ih =>
    intro h
    unfold JsStr.containsSub
    rcases List.mem_cons.mp h with rfl | hm
    · simp [List.isPrefixOf]
    · rw [ih hm]
      simp

/-- Claim C10: both key:value line parsers truncate at the second colon.  For
a line `a : b : c` (no colon inside `a` or `b`), `GamesListParser` stores
exactly `lower (trim a) ↦ trim b`, and `MindMapParser` (after a week line
`w`) stores exactly `lower (trim w ++ " " ++ trim a) ↦ trim b`; everything
after the second colon is dropped. -/
theorem claim_C10 (a b c w : List Char)
    (hca : ':' ∉ a) (hcb : ':' ∉ b)
    (hna : '\n' ∉ a) (hnb : '\n' ∉ b) (hnc : '\n' ∉ c) (hnw : '\n' ∉ w)
    (hta : JsStr.trim (a ++ ':' :: (b ++ ':' :: c)) ≠ [])
    (hwweek : JsStr.containsSub (JsStr.lower w) "week".toList = true)
    (htw : JsStr.trim w ≠ [])
    (hlweek : JsStr.containsSub (JsStr.lower (a ++ ':' :: (b ++ ':' :: c)))
      "week".toList = false) :
    Textual.GamesListParser (a ++ ':' :: (b ++ ':' :: c)) =
      [(JsStr.lower (JsStr.trim a), JsStr.trim b)] ∧
    (Textual.MindMapParser (w ++ '\n' :: (a ++ ':' :: (b ++ ':' :: c)))).data =
      [(JsStr.lower (JsStr.trim w ++ ' ' :: JsStr.trim a), JsStr.trim b)] := by
  have hnl : '\n' ∉ a ++ ':' :: (b ++ ':' :: c) := by
    intro hm
    rcases List.mem_append.mp hm with h1 | h1
    · exact hna h1
    · rcases List.mem_cons.mp h1 with h2 | h2
      · exact absurd h2 (by decide)
      · rcases List.mem_append.mp h2 with h3 | h3
        · exact hnb h3
        · rcases List.mem_cons.mp h3 with h4 | h4
          · exact absurd h4 (by decide)
          · exact hnc h4
  have hsplitn : JsStr.splitOnChar '\n' (a ++ ':' :: (b ++ ':' :: c)) =
      [a ++ ':' :: (b ++ ':' :: c)] := splitOnChar_of_not_mem _ _ hnl
  have hsplitc : JsStr.splitOnChar ':' (a ++ ':' :: (b ++ ':' :: c)) =
      a :: b :: JsStr.splitOnChar ':' c := by
    rw [splitOnChar_append ':' a _ hca, splitOnChar_append ':' b _ hcb]
  have hcolon : JsStr.containsSub (a ++ ':' :: (b ++ ':' :: c)) [':'] = true :=
    containsSub_singleton ':' _ (by simp)
  constructor
  · unfold Textual.GamesListParser
    rw [hsplitn]
    simp [hta, hcolon, hsplitc]
  · unfold Textual.MindMapParser
    rw [splitOnChar_append '\n' w _ hnw, hsplitn]
    have hw' : JsStr.containsSub (JsStr.lower w) ['w', 'e', 'e', 'k'] = true := hwweek
    have hl' : JsStr.containsSub (JsStr.lower (a ++ ':' :: (b ++ ':' :: c)))
        ['w', 'e', 'e', 'k'] = false := hlweek
    simp [htw, hta, hw', hl', hcolon, hsplitc]

/-- Helper: every member's score is bounded by the running maximum. -/
theorem overlapScore_le_max (mw : List (List Char)) :
    ∀ (ns : List (List Char)) (x : List Char), x ∈ ns →
      App.overlapScore mw x ≤ (ns.map (App.overlapScore mw)).foldr max 0 := by
  intro ns
  induction ns with
  | nil => intro x hx; cases hx
  | cons n ns ih =>
    intro x hx
    rw [List.map_cons, List.foldr_cons]
    rcases List.mem_cons.mp hx with rfl | hm
    · exact le_max_left _ _
    · exact le_trans (ih x hm) (le_max_right _ _)

/-- Helper: the `findFuzzyGame` fold is the identity when no score beats the
accumulator. -/
theorem fuzzyFold_no_update (mw : List (List Char)) :
    ∀ (names : List (List Char)) (acc : List Char × Nat),
      (∀ n ∈ names, App.overlapScore mw n ≤ acc.2) →
      names.foldl (App.fuzzyStep mw) acc = acc := by
  intro names
  induction names with
  | nil => intro acc _; rfl
  | cons n ns ih =>
    intro acc h
    rw [List.foldl_cons]
    have hstep : App.fuzzyStep mw acc n = acc := by
      simp only [App.fuzzyStep]
      split
      · next hcond => exact absurd hcond.1 (not_lt.mpr (h n (List.mem_cons_self n ns)))
      · rfl
    rw [hstep]
    exact ih acc (fun x hx => h x (List.mem_cons_of_mem _ hx))

/-- Helper: when some score beats the accumulator, the fold returns the first
name attaining the maximum score, paired with that maximum. -/
theorem fuzzyFold_update (mw : List (List Char)) :
    ∀ (names : List (List Char)) (acc : List Char × Nat),
      acc.2 < (names.map (App.overlapScore mw)).foldr max 0 →
      ∃ w, names.find?
          (fun n => App.overlapScore mw n =
            (names.map (App.overlapScore mw)).foldr max 0) = some w ∧
        names.foldl (App.fuzzyStep mw) acc =
          (w, (names.map (App.overlapScore mw)).foldr max 0) := by
  intro names
  induction names with
  | nil => intro acc h; simp at h
  | cons n ns ih =>
    intro acc h
    rw [List.map_cons, List.foldr_cons] at h
    by_cases hs : acc.2 < App.overlapScore mw n
    · have hstep : App.fuzzyStep mw acc n = (n, App.overlapScore mw n) := by
        simp only [App.fuzzyStep]
        rw [if_pos ⟨hs, by omega⟩]
      by_cases hMax : (ns.map (App.overlapScore mw)).foldr max 0 ≤ App.overlapScore mw n
      · have hM : max (App.overlapScore mw n) ((ns.map (App.overlapScore mw)).foldr max 0) =
            App.overlapScore mw n := max_eq_left hMax
        refine ⟨n, ?_, ?_⟩
        · rw [List.find?_cons]
          simp [hM]
        · rw [List.foldl_cons, hstep, List.map_cons, List.foldr_cons, hM]
          exact fuzzyFold_no_update mw ns (n, App.overlapScore mw n)
            (fun x hx => le_trans (overlapScore_le_max mw ns x hx) hMax)
      · push_neg at hMax
        have hM : max (App.overlapScore mw n) ((ns.map (App.overlapScore mw)).foldr max 0) =
            (ns.map (App.overlapScore mw)).foldr max 0 := max_eq_right (le_of_lt hMax)
        obtain ⟨w, hfind, hfold⟩ := ih (n, App.overlapScore mw n) (by simpa using hMax)
        refine ⟨w, ?_, ?_⟩
        · rw [List.find?_cons]
          have hne : ¬ (App.overlapScore mw n =
              ((n :: ns).map (App.overlapScore mw)).foldr max 0) := by
            rw [List.map_cons, List.foldr_cons, hM]
            omega
          simp only [List.map_cons, List.foldr_cons, hM] at hne ⊢
          simp only [decide_eq_false hne]
          exact hfind
        · rw [List.foldl_cons, hstep, List.map_cons, List.foldr_cons, hM]
          exact hfold
    · push_neg at hs
      have hstep : App.fuzzyStep mw acc n = acc := by
        simp only [App.fuzzyStep]
        split
        · next hcond => exact absurd hcond.1 (not_lt.mpr hs)
        · rfl
      have hM' : acc.2 < (ns.map (App.overlapScore mw)).foldr max 0 := by
        rcases max_cases (App.overlapScore mw n) ((ns.map (App.overlapScore mw)).foldr max 0) with
          ⟨he, _⟩ | ⟨he, _⟩ <;> omega
      have hM : max (App.overlapScore mw n) ((ns.map (App.overlapScore mw)).foldr max 0) =
          (ns.map (App.overlapScore mw)).foldr max 0 := max_eq_right (by omega)
      obtain ⟨w, hfind, hfold⟩ := ih acc hM'
      refine ⟨w, ?_, ?_⟩
      · rw [List.find?_cons]
        have hne : ¬ (App.overlapScore mw n =
            ((n :: ns).map (App.overlapScore mw)).foldr max 0) := by
          rw [List.map_cons, List.foldr_cons, hM]
          omega
        simp only [List.map_cons, List.foldr_cons, hM] at hne ⊢
        simp only [decide_eq_false hne]
        exact hfind
      · rw [List.foldl_cons, hstep, List.map_cons, List.foldr_cons, hM]
        exact hfold

/-- Claim C3: the fuzzy matcher scores each catalog name by the count of its
`≥ 3`-character tokens found among the noisy text's `≥ 3`-character tokens,
returns the first name (in catalog order) attaining the maximum score when
that maximum is at least 1, and otherwise reports no match, in which case
`generateLessonPlan` falls back to the cleaned noisy text with the generic
description.  On the spec's example catalog, `bee hunt` wins with overlap 2. -/
theorem claim_C3 :
    (∀ (names : List (List Char)) (text : List Char),
        (∀ n ∈ names, App.overlapScore (App.tokens3 text) n = 0) →
        App.findFuzzyGame names text = []) ∧
    (∀ (names : List (List Char)) (text : List Char),
        1 ≤ (names.map (App.overlapScore (App.tokens3 text))).foldr max 0 →
        ∃ w, names.find?
            (fun n => App.overlapScore (App.tokens3 text) n =
              (names.map (App.overlapScore (App.tokens3 text))).foldr max 0) = some w ∧
          App.findFuzzyGame names text = w) ∧
    (App.findFuzzyGame ["bee hunt".toList, "leaf toss".toList]
        "play the bee hunt game today".toList = "bee hunt".toList ∧
      App.overlapScore (App.tokens3 "play the bee hunt game today".toList)
        "bee hunt".toList = 2 ∧
      App.overlapScore (App.tokens3 "play the bee hunt game today".toList)
        "leaf toss".toList = 0) ∧
    (∀ (gamesList : List (List Char × List Char)) (game : List Char),
        App.findFuzzyGame (gamesList.map (·.1)) (JsStr.lower game) = [] →
        App.resolveGame gamesList game =
          { cleanGameName := App.cleanNoisy game,
            genericDesc := "Educational game based on curriculum targets.".toList }) := by
  refine ⟨?_, ?_, by decide, ?_⟩
  · intro names text h
    simp only [App.findFuzzyGame]
    rw [fuzzyFold_no_update _ names ([], 0) (fun n hn => le_of_eq (h n hn))]
  · intro names text h
    obtain ⟨w, hfind, hfold⟩ := fuzzyFold_update (App.tokens3 text) names ([], 0) (by omega)
    refine ⟨w, hfind, ?_⟩
    simp only [App.findFuzzyGame]
    rw [hfold]
  · intro gamesList game h
    simp only [App.resolveGame]
    rw [h]
    simp

/-- Witness for claim C3: a catalog with no token overlap yields no match. -/
theorem claim_C3_witness :
    App.findFuzzyGame ["xyzzy".toList] "ab cd".toList = [] :=
  claim_C3.1 _ _ (by decide)

/-- Claim C5: with a known week label, a mind-map entry is selected only when
its lowercased key contains both the lowercased label and the day token, the
first such entry winning; when nothing passes, the generic
`Learning targets for <content>` string is produced, with no relaxed retry.
On the spec's example, only the `week 2 monday` entry is selected. -/
theorem claim_C5 :
    (∀ (entries : List (List Char × List Char)) (week day : List Char)
        (kv : List Char × List Char), week ≠ [] →
        App.mindMapFind entries (JsStr.lower week) day = some kv →
        JsStr.containsSub (JsStr.lower kv.1) (JsStr.lower week) = true ∧
        JsStr.containsSub (JsStr.lower kv.1) day = true ∧
        ∃ i, entries.get? i = some kv ∧
          ∀ j kv', j < i → entries.get? j = some kv' →
            App.mindMapKeyMatches (JsStr.lower week) day kv'.1 = false) ∧
    (∀ (entries : List (List Char × List Char)) (week day content : List Char),
        App.mindMapFind entries (JsStr.lower week) day = none →
        App.resolveTargets entries week day content =
          "Learning targets for ".toList ++ content) ∧
    (App.resolveTargets
        [("week 1 monday".toList, "count objects".toList),
         ("week 2 monday".toList, "sort by size".toList)]
        "WEEK 2".toList "monday".toList "x".toList = "sort by size".toList ∧
      App.mindMapFind
        [("week 1 monday".toList, "count objects".toList),
         ("week 2 monday".toList, "sort by size".toList)]
        (JsStr.lower "WEEK 2".toList) "monday".toList =
        some ("week 2 monday".toList, "sort by size".toList)) := by
  refine ⟨?_, ?_, by decide⟩
  · intro entries week day kv hw hfind
    have hwl : JsStr.lower week ≠ [] := by
      simpa [JsStr.lower] using hw
    have hp := List.find?_some hfind
    have hmatch : JsStr.containsSub (JsStr.lower kv.1) (JsStr.lower week) = true ∧
        JsStr.containsSub (JsStr.lower kv.1) day = true := by
      unfold App.mindMapKeyMatches at hp
      by_cases hc : JsStr.containsSub (JsStr.lower kv.1) (JsStr.lower week) = true
      · refine ⟨hc, ?_⟩
        rwa [if_neg (by simp [hc])] at hp
      · rw [if_pos ⟨hwl, by simpa using hc⟩] at hp
        exact absurd hp (by simp)
    obtain ⟨i, hget, _, hfirst⟩ := find?_first_char _ entries kv hfind
    exact ⟨hmatch.1, hmatch.2, i, hget, fun j kv' hj hkv' => hfirst j kv' hj hkv'⟩
  · intro entries week day content hnone
    simp only [App.resolveTargets]
    rw [hnone]

/-- Witness for claim C5: the empty mind map falls back to the generic
string. -/
theorem claim_C5_witness :
    App.resolveTargets [] "WEEK 2".toList "monday".toList "x".toList =
      "Learning targets for x".toList :=
  (claim_C5.2.1 [] "WEEK 2".toList "monday".toList "x".toList (by decide)).trans
    (by decide)

/-- Witness for claim C10: `Bee Hunt: find the bees: extra` keeps only the
text between the first and second colon as the description. -/
theorem claim_C10_witness :
    Textual.GamesListParser "Bee Hunt: find the bees: extra".toList =
      [("bee hunt".toList, "find the bees".toList)] := by
  have h := (claim_C10 "Bee Hunt".toList " find the bees".toList " extra".toList
    "Week 1".toList (by decide) (by decide) (by decide) (by decide) (by decide)
    (by decide) (by decide) (by decide) (by decide) (by decide)).1
  exact (congrArg Textual.GamesListParser (by decide)).trans (h.trans (by decide))

/-- Counterexample to claim C4 as stated: on
`Monday Small Group\nPhonics fun`, the recovered subject span `Small Group` —
recognised by the metadata filter — surfaces verbatim as monday's subject;
the `Vocabulary` fallback is not applied. -/
theorem claim_C4_cx :
    (Textual.CalendarTableParser "Monday Small Group\nPhonics fun".toList).data =
      [("monday".toList,
        { subject := "Small Group".toList, content := "Phonics fun".toList,
          game := "Phonics fun".toList })] ∧
    Textual.isMetadata "Small Group".toList = true := by
  decide

/-- Claim C4 (amended): in the column path a day is dropped only when both
its subject and its content are metadata; when the content is not metadata
the record is always emitted and the subject span — metadata or not —
surfaces verbatim, the `Vocabulary` default applying only to an empty span.
(`small group` is indeed recognised by the filter; the row-based path, which
would substitute the next line, is unreachable because any line containing a
day name selects the column path.) -/
theorem claim_C4 (day subject content : List Char)
    (h : Textual.isMetadata content = false) :
    Textual.mkColumnDay day subject content =
      [(day,
        { subject := if subject = [] then "Vocabulary".toList else subject,
          content := content, game := content })] ∧
    (∀ s c, Textual.isMetadata s = true → Textual.isMetadata c = true →
      Textual.mkColumnDay day s c = []) ∧
    Textual.isMetadata "small group".toList = true ∧
    Textual.isMetadata "Small Group".toList = true := by
  refine ⟨?_, ?_, by decide, by decide⟩
  · simp [Textual.mkColumnDay, h]
  · intro s c hs hc
    simp [Textual.mkColumnDay, hs, hc]

/-- Witness for claim C4: the metadata subject `Small Group` surfaces when
the content `Phonics fun` is not metadata. -/
theorem claim_C4_witness :
    Textual.mkColumnDay "monday".toList "Small Group".toList "Phonics fun".toList =
      [("monday".toList,
        { subject := "Small Group".toList, content := "Phonics fun".toList,
          game := "Phonics fun".toList })] :=
  ((claim_C4 "monday".toList "Small Group".toList "Phonics fun".toList
    (by decide)).1).trans (by decide)

/-- Helper: boundary closing preserves the number of columns. -/
theorem closeCols_length (cs : List Positional.Col) :
    (Positional.closeCols cs).length = cs.length := by
  induction cs using Positional.closeCols.induct with
  | case1 => rfl
  | case2 c => rfl
  | case3 c c' rest m ih =>
    unfold Positional.closeCols
    simpa using ih

/-- Helper: boundary closing never changes the first column's `xMin`. -/
theorem closeCols_head_xMin (cs : List Positional.Col) :
    (Positional.closeCols cs).head?.map Positional.Col.xMin =
      cs.head?.map Positional.Col.xMin := by
  match cs with
  | [] => rfl
  | [c] => unfold Positional.closeCols; rfl
  | c :: c' :: rest => unfold Positional.closeCols; rfl

/-- Helper: after closing, each column's `xMax` equals the next column's
`xMin`. -/
theorem closeCols_chain (cs : List Positional.Col) :
    List.Chain' (fun a b => a.xMax = b.xMin) (Positional.closeCols cs) := by
  induction cs using Positional.closeCols.induct with
  | case1 => simp [Positional.closeCols]
  | case2 c => unfold Positional.closeCols; simp
  | case3 c c' rest m ih =>
    unfold Positional.closeCols
    dsimp only
    rcases h : Positional.closeCols
        ({ c' with xMin := (c.xMax + c'.xMin) / 2 } :: rest) with _ | ⟨d, ds⟩
    · simp [h]
    · rw [List.chain'_cons]
      constructor
      · have hh := closeCols_head_xMin ({ c' with xMin := (c.xMax + c'.xMin) / 2 } :: rest)
        rw [h] at hh
        simpa using hh.symm
      · exact h ▸ ih

/-- Helper: `getLast?` of a cons with a non-empty tail. -/
theorem getLast?_cons_ne_nil {α : Type} (a : α) (l : List α) (h : l ≠ []) :
    (a :: l).getLast? = l.getLast? := by
  cases l with
  | nil => exact absurd rfl h
  | cons b bs => exact List.getLast?_cons_cons

/-- Helper: the last closed column carries the `10000` sentinel. -/
theorem closeCols_getLast (cs : List Positional.Col) (h : cs ≠ []) :
    (Positional.closeCols cs).getLast?.map Positional.Col.xMax = some 10000 := by
  induction cs using Positional.closeCols.induct with
  | case1 => exact absurd rfl h
  | case2 c => unfold Positional.closeCols; rfl
  | case3 c c' rest m ih =>
    unfold Positional.closeCols
    dsimp only
    have hne : Positional.closeCols
        ({ c' with xMin := (c.xMax + c'.xMin) / 2 } :: rest) ≠ [] := by
      intro he
      have := closeCols_length ({ c' with xMin := (c.xMax + c'.xMin) / 2 } :: rest)
      rw [he] at this
      simp at this
    rw [getLast?_cons_ne_nil _ _ hne]
    exact ih (by simp)

/-- Helper: each closed boundary is the midpoint of the pre-closing `xMax`
of the left column and the pre-closing `xMin` of the right column. -/
theorem closeCols_get?_xMax (cs : List Positional.Col) :
    ∀ i a b, cs.get? i = some a → cs.get? (i + 1) = some b →
      ((Positional.closeCols cs).get? i).map Positional.Col.xMax =
        some ((a.xMax + b.xMin) / 2) := by
  induction cs using Positional.closeCols.induct with
  | case1 => intro i a b ha _; simp at ha
  | case2 c =>
    intro i a b _ hb
    rcases i with _ | i <;> simp at hb
  | case3 c c' rest m ih =>
    intro i a b ha hb
    unfold Positional.closeCols
    dsimp only
    rcases i with _ | i
    · obtain rfl : c = a := by simpa using ha
      obtain rfl : c' = b := by simpa using hb
      rfl
    · have hb' : ({ c' with xMin := (c.xMax + c'.xMin) / 2 } :: rest).get? (i + 1) = some b := by
        simpa using hb
      obtain ⟨a', ha', hax⟩ :
          ∃ a', ({ c' with xMin := (c.xMax + c'.xMin) / 2 } :: rest).get? i = some a' ∧
            a'.xMax = a.xMax := by
        rcases i with _ | j
        · refine ⟨{ c' with xMin := (c.xMax + c'.xMin) / 2 }, rfl, ?_⟩
          obtain rfl : c' = a := by simpa using ha
          rfl
        · exact ⟨a, by simpa using ha, rfl⟩
      have := ih i a' b ha' hb'
      rw [List.get?_cons_succ, this, hax]

/-- Helper: the closed columns of a non-empty list cover every `x` from the
first column's `xMin` up to the sentinel, even without monotone boundaries. -/
theorem closeCols_cover (c : Positional.Col) (cs : List Positional.Col) :
    ∀ x : ℚ, c.xMin ≤ x → x ≤ 10000 →
      ∃ col ∈ Positional.closeCols (c :: cs), col.xMin ≤ x ∧ x ≤ col.xMax := by
  induction cs generalizing c with
  | nil =>
    intro x h1 h2
    refine ⟨{ c with xMax := 10000 }, ?_, h1, h2⟩
    unfold Positional.closeCols
    simp
  | cons c' rest ih =>
    intro x h1 h2
    by_cases hx : x ≤ (c.xMax + c'.xMin) / 2
    · refine ⟨{ c with xMax := (c.xMax + c'.xMin) / 2 }, ?_, h1, hx⟩
      unfold Positional.closeCols
      exact List.mem_cons_self _ _
    · push_neg at hx
      obtain ⟨col, hmem, hc1, hc2⟩ :=
        ih { c' with xMin := (c.xMax + c'.xMin) / 2 } x (le_of_lt hx) h2
      refine ⟨col, ?_, hc1, hc2⟩
      unfold Positional.closeCols
      exact List.mem_cons_of_mem _ hmem

/-- Claim C1 (amended): after the boundary-closing pass of the positional
`CalendarTableParser`, adjacent columns share a boundary equal to the
midpoint of the previous column's pre-closing `xMax` and the next column's
pre-closing `xMin` (`cols[i].xMax = cols[i+1].xMin`), the last column's
`xMax` is the `10000` sentinel, and the first column's `xMin` keeps its
pre-closing value — it is not opened towards `-∞` — so the columns cover
exactly the x-positions from the first `xMin` to the sentinel (boundary
points falling in both adjacent columns). -/
theorem claim_C1 (ws : List Positional.Word) (h : Positional.rawColsOf ws ≠ []) :
    (Positional.closedColsOf ws).head?.map Positional.Col.xMin =
      (Positional.rawColsOf ws).head?.map Positional.Col.xMin ∧
    List.Chain' (fun a b => a.xMax = b.xMin) (Positional.closedColsOf ws) ∧
    (Positional.closedColsOf ws).getLast?.map Positional.Col.xMax = some 10000 ∧
    (∀ i a b, (Positional.rawColsOf ws).get? i = some a →
      (Positional.rawColsOf ws).get? (i + 1) = some b →
      ((Positional.closedColsOf ws).get? i).map Positional.Col.xMax =
        some ((a.xMax + b.xMin) / 2)) ∧
    (∀ (x : ℚ) (c0 : Positional.Col),
      (Positional.rawColsOf ws).head? = some c0 → c0.xMin ≤ x → x ≤ 10000 →
      ∃ col ∈ Positional.closedColsOf ws, col.xMin ≤ x ∧ x ≤ col.xMax) := by
  refine ⟨closeCols_head_xMin _, closeCols_chain _, closeCols_getLast _ h,
    fun i a b ha hb => closeCols_get?_xMax _ i a b ha hb, ?_⟩
  intro x c0 hc0 h1 h2
  rcases hcs : Positional.rawColsOf ws with _ | ⟨d, ds⟩
  · rw [hcs] at hc0; simp at hc0
  · rw [hcs] at hc0
    have hd : d = c0 := by simpa using hc0
    subst hd
    unfold Positional.closedColsOf
    rw [hcs]
    exact closeCols_cover d ds x h1 h2

/-- Counterexample to claim C1 as stated: on the concrete header
`Monday [100,200] | Tuesday [300,400]`, the closed columns are `[100, 250]`
and `[250, 10000]`; the x-position `50` lies in no column (the first `xMin`
is not an open sentinel) and the boundary `250` lies in two, so x-positions
do not map to exactly one column. -/
theorem claim_C1_cx :
    ((Positional.closedColsOf Positional.cxColsWords).filter
        (fun c => Positional.colContainsX c 50)).length = 0 ∧
    ((Positional.closedColsOf Positional.cxColsWords).filter
        (fun c => Positional.colContainsX c 250)).length = 2 ∧
    (Positional.closedColsOf Positional.cxColsWords).length = 2 := by
  decide

/-- Witness for claim C1 at the two-column header input. -/
theorem claim_C1_witness :
    (Positional.closedColsOf Positional.cxColsWords).getLast?.map
      Positional.Col.xMax = some 10000 :=
  (claim_C1 Positional.cxColsWords (by decide)).2.2.1

/-- Counterexample to claim C7 as stated: on the header input with tokens
`Week 9`, the claim's regex `/week\s*(\d+)/i` matches with number 9, but the
parser's actual primary pattern `/week\s*([1-8])\b/i` does not, its fallback
finds no bare digit 1–8, and the recovered week label is empty rather than
`WEEK 9`. -/
theorem claim_C7_cx :
    (Positional.CalendarTableParser Positional.cxWeek9Words).week = [] ∧
    Positional.scanWeekClaim
      (Positional.allTextOf (Positional.sortedWordsOf Positional.cxWeek9Words)) =
      some ['9'] := by
  decide

/-- Claim C7 (amended): whenever the positional parser passes its guards
(non-empty input and a detected header row), the recovered week label is
exactly `weekExtract` over the y-sorted words: primary pattern
`/week\s*([1-8])\b/i` (a single digit 1–8 with a word boundary, not `\d+`)
formatted as `WEEK <digit>`; otherwise the fallback window
`slice(max(0, idx - 2), idx + 5)` around the first token containing `week` —
which also spans the two preceding tokens — is searched for a token passing
`/\b[1-8]\b/`, whose whole text is interpolated; otherwise the label is
empty.  Concretely, `Week 3` yields `WEEK 3`, and a digit token before the
`week` token is also accepted. -/
theorem claim_C7 (ws : List Positional.Word) (h1 : ws ≠ [])
    (h2 : Positional.headerRowIndicesOf ws ≠ []) :
    (Positional.CalendarTableParser ws).week =
      Positional.weekExtract (Positional.sortedWordsOf ws) ∧
    (Positional.CalendarTableParser Positional.demoWeek3Words).week =
      "WEEK 3".toList ∧
    (Positional.CalendarTableParser Positional.demoPre3Words).week =
      "WEEK 3".toList := by
  refine ⟨?_, by decide, by decide⟩
  simp [Positional.CalendarTableParser, h1, h2]

/-- Witness for claim C7 at the `Week 3` input. -/
theorem claim_C7_witness :
    (Positional.CalendarTableParser Positional.demoWeek3Words).week =
      Positional.weekExtract (Positional.sortedWordsOf Positional.demoWeek3Words) :=
  (claim_C7 Positional.demoWeek3Words (by decide) (by decide)).1

/-- Helper: the song component of the step-5 fold keeps its initial value
unless some song column's content is non-empty and longer than 3 characters,
in which case it ends as such a column's content. -/
theorem extractFold_song (contentRows : List Positional.Row) :
    ∀ (cols : List Positional.Col)
      (st : List (List Char × Positional.DayRecord) × List Char),
      (cols.foldl (Positional.extractStep contentRows) st).2 = st.2 ∨
      ∃ c ∈ cols, c.isSong = true ∧
        Positional.colContent contentRows c ≠ [] ∧
        (Positional.colContent contentRows c).length > 3 ∧
        (cols.foldl (Positional.extractStep contentRows) st).2 =
          Positional.colContent contentRows c := by
  intro cols
  induction cols with
  | nil => intro st; exact Or.inl rfl
  | cons c cs ih =>
    intro st
    rw [List.foldl_cons]
    rcases ih (Positional.extractStep contentRows st c) with h | ⟨c', hmem, hsong, hne, hlen, heq⟩
    · by_cases hcsong : c.isSong
      · by_cases hcond : Positional.colContent contentRows c ≠ [] ∧
            (Positional.colContent contentRows c).length > 3
        · refine Or.inr ⟨c, List.mem_cons_self c cs, hcsong, hcond.1, hcond.2, ?_⟩
          rw [h]
          simp [Positional.extractStep, hcsong, hcond.1, hcond.2]
        · refine Or.inl ?_
          rw [h]
          simp only [Positional.extractStep, hcsong, if_true]
          rw [if_neg hcond]
      · refine Or.inl ?_
        rw [h]
        simp [Positional.extractStep, hcsong]
    · exact Or.inr ⟨c', List.mem_cons_of_mem _ hmem, hsong, hne, hlen, heq⟩

/-- Claim C8 (amended): the positional parser returns `song = ""` — not the
sentinel — on empty input and whenever no header row is detected (its early
returns); past the guards, the song field is the sentinel `Song of the Week`
unless some detected song column's extracted content is non-empty and longer
than 3 characters, in which case that content is returned. -/
theorem claim_C8 (ws : List Positional.Word) (h1 : ws ≠ [])
    (h2 : Positional.headerRowIndicesOf ws ≠ []) :
    (Positional.CalendarTableParser []).song = [] ∧
    (∀ ws', Positional.headerRowIndicesOf ws' = [] →
      (Positional.CalendarTableParser ws').song = []) ∧
    ((Positional.CalendarTableParser ws).song = "Song of the Week".toList ∨
      ∃ c ∈ Positional.closedColsOf ws, c.isSong = true ∧
        Positional.colContent (Positional.contentRowsOf ws) c ≠ [] ∧
        (Positional.colContent (Positional.contentRowsOf ws) c).length > 3 ∧
        (Positional.CalendarTableParser ws).song =
          Positional.colContent (Positional.contentRowsOf ws) c) := by
  refine ⟨rfl, ?_, ?_⟩
  · intro ws' hh
    by_cases hws' : ws' = []
    · subst hws'; rfl
    · simp [Positional.CalendarTableParser, hws', hh]
  · have hsong : (Positional.CalendarTableParser ws).song =
        ((Positional.closedColsOf ws).foldl
          (Positional.extractStep (Positional.contentRowsOf ws))
          ([], "Song of the Week".toList)).2 := by
      simp [Positional.CalendarTableParser, h1, h2]
    rcases extractFold_song (Positional.contentRowsOf ws) (Positional.closedColsOf ws)
        ([], "Song of the Week".toList) with h | ⟨c, hmem, hs, hne, hlen, heq⟩
    · exact Or.inl (hsong.trans h)
    · exact Or.inr ⟨c, hmem, hs, hne, hlen, hsong.trans heq⟩

/-- Counterexample to claim C8 as stated: the empty input and a no-header
input both return `song = ""`, not the sentinel, although no song content was
recovered. -/
theorem claim_C8_cx :
    (Positional.CalendarTableParser []).song = [] ∧
    (Positional.CalendarTableParser [Positional.mkW "hello" 0 0 10 10]).song = [] ∧
    ([] : List Char) ≠ "Song of the Week".toList := by
  decide

/-- Witness for claim C8 at the `Song` column input. -/
theorem claim_C8_witness :
    (Positional.CalendarTableParser Positional.demoSongWords).song =
        "Song of the Week".toList ∨
      ∃ c ∈ Positional.closedColsOf Positional.demoSongWords, c.isSong = true ∧
        Positional.colContent (Positional.contentRowsOf Positional.demoSongWords) c ≠ [] ∧
        (Positional.colContent
          (Positional.contentRowsOf Positional.demoSongWords) c).length > 3 ∧
        (Positional.CalendarTableParser Positional.demoSongWords).song =
          Positional.colContent (Positional.contentRowsOf Positional.demoSongWords) c :=
  (claim_C8 Positional.demoSongWords (by decide) (by decide)).2.2

/-- Helper: one clustering step adds exactly the incoming word to the
multiset of clustered words. -/
theorem addWordToRows_flatMap (w : Positional.Word) :
    ∀ rows : List Positional.Row,
      ((Positional.addWordToRows w rows).flatMap Positional.Row.words).Perm
        ((rows.flatMap Positional.Row.words) ++ [w]) := by
  intro rows
  induction rows with
  | nil => simp [Positional.addWordToRows]
  | cons r rs ih =>
    unfold Positional.addWordToRows
    by_cases hm : Positional.midY w ≥ r.y0 ∧ Positional.midY w ≤ r.y1
    · rw [if_pos hm]
      simp only [List.flatMap_cons]
      simpa [List.append_assoc] using
        List.Perm.append_left r.words
          (@List.perm_append_comm _ [w] (rs.flatMap Positional.Row.words))
    · rw [if_neg hm]
      simp only [List.flatMap_cons]
      refine (List.Perm.append_left r.words ih).trans ?_
      rw [← List.append_assoc]

/-- Helper: folding the clustering over a word list adds exactly those
words. -/
theorem foldl_cluster_flatMap :
    ∀ (l : List Positional.Word) (rows : List Positional.Row),
      ((l.foldl (fun rs w => Positional.addWordToRows w rs) rows).flatMap
        Positional.Row.words).Perm ((rows.flatMap Positional.Row.words) ++ l) := by
  intro l
  induction l with
  | nil => intro rows; simp
  | cons w l' ih =>
    intro rows
    rw [List.foldl_cons]
    refine (ih (Positional.addWordToRows w rows)).trans ?_
    refine (List.Perm.append_right l' (addWordToRows_flatMap w rows)).trans ?_
    rw [List.append_assoc]
    exact List.Perm.refl _

/-- Helper: the final per-row x-sort keeps the multiset of words. -/
theorem flatMap_sortWords (rows : List Positional.Row) :
    ((rows.map (fun r => { r with
        words := List.insertionSort Positional.wordLeX r.words })).flatMap
      Positional.Row.words).Perm (rows.flatMap Positional.Row.words) := by
  induction rows with
  | nil => simp
  | cons r rs ih =>
    simp only [List.map_cons, List.flatMap_cons]
    exact List.Perm.append (List.perm_insertionSort _ _) ih

/-- Helper: a clustering step either leaves the row `y0` keys unchanged (the
word joined a row no lower than it) or appends the word's own `y0`. -/
theorem addWordToRows_map_y0 (w : Positional.Word) :
    ∀ rows : List Positional.Row,
      (∀ r ∈ rows, r.y0 ≤ w.bbox.y0) →
      (Positional.addWordToRows w rows).map Positional.Row.y0 =
          rows.map Positional.Row.y0 ∨
        (Positional.addWordToRows w rows).map Positional.Row.y0 =
          rows.map Positional.Row.y0 ++ [w.bbox.y0] := by
  intro rows
  induction rows with
  | nil => intro _; right; rfl
  | cons r rs ih =>
    intro h
    unfold Positional.addWordToRows
    by_cases hm : Positional.midY w ≥ r.y0 ∧ Positional.midY w ≤ r.y1
    · rw [if_pos hm]
      left
      simp only [List.map_cons]
      rw [min_eq_left (h r (List.mem_cons_self r rs))]
    · rw [if_neg hm]
      rcases ih (fun r' hr' => h r' (List.mem_cons_of_mem _ hr')) with h' | h'
      · left
        simp only [List.map_cons, h']
      · right
        simp only [List.map_cons, h', List.cons_append]

/-- Helper: processing y-ascending words keeps the row list sorted by `y0`
and below all remaining words. -/
theorem foldl_cluster_sorted :
    ∀ (l : List Positional.Word) (rows : List Positional.Row),
      List.Pairwise Positional.wordLeY l →
      List.Pairwise (· ≤ ·) (rows.map Positional.Row.y0) →
      (∀ r ∈ rows, ∀ w ∈ l, r.y0 ≤ w.bbox.y0) →
      List.Pairwise (· ≤ ·)
        ((l.foldl (fun rs w => Positional.addWordToRows w rs) rows).map
          Positional.Row.y0) := by
  intro l
  induction l with
  | nil => intro rows _ hrows _; simpa using hrows
  | cons w l' ih =>
    intro rows hl hrows hbound
    rw [List.foldl_cons]
    have hb : ∀ r ∈ rows, r.y0 ≤ w.bbox.y0 :=
      fun r hr => hbound r hr w (List.mem_cons_self _ _)
    apply ih
    · exact (List.pairwise_cons.mp hl).2
    · rcases addWordToRows_map_y0 w rows hb with h | h
      · rw [h]; exact hrows
      · rw [h]
        refine List.pairwise_append.mpr ⟨hrows, List.pairwise_singleton _ _, ?_⟩
        intro a ha b hbm
        obtain ⟨r0, hr0, he⟩ := List.mem_map.mp ha
        obtain rfl : b = w.bbox.y0 := by simpa using hbm
        exact le_trans (le_of_eq he.symm) (hb r0 hr0)
    · intro r hr w' hw'
      have hw_le : w.bbox.y0 ≤ w'.bbox.y0 := (List.pairwise_cons.mp hl).1 w' hw'
      have hy : r.y0 ∈ (Positional.addWordToRows w rows).map Positional.Row.y0 :=
        List.mem_map_of_mem _ hr
      rcases addWordToRows_map_y0 w rows hb with h | h
      · rw [h] at hy
        obtain ⟨r0, hr0, he⟩ := List.mem_map.mp hy
        exact le_trans (le_of_eq he.symm) (le_trans (hb r0 hr0) hw_le)
      · rw [h] at hy
        rcases List.mem_append.mp hy with hy' | hy'
        · obtain ⟨r0, hr0, he⟩ := List.mem_map.mp hy'
          exact le_trans (le_of_eq he.symm) (le_trans (hb r0 hr0) hw_le)
        · obtain he : r.y0 = w.bbox.y0 := by simpa using hy'
          exact le_trans (le_of_eq he) hw_le

/-- Claim C2: for every input word list, the Row Clusterer's rows are sorted
ascending by `y0`, each row's words are sorted ascending by `x0`, and the
rows partition the input tokens (their concatenation is a permutation of the
input). -/
theorem claim_C2 (ws : List Positional.Word) :
    List.Pairwise (fun r r' : Positional.Row => r.y0 ≤ r'.y0)
      (Positional.clusterRows ws) ∧
    (∀ r ∈ Positional.clusterRows ws,
      List.Pairwise Positional.wordLeX r.words) ∧
    ((Positional.clusterRows ws).flatMap Positional.Row.words).Perm ws := by
  refine ⟨?_, ?_, ?_⟩
  · have hsorted := foldl_cluster_sorted (Positional.sortedWordsOf ws) []
      (List.sorted_insertionSort Positional.wordLeY ws)
      (by simp) (by simp)
    unfold Positional.clusterRows
    rw [List.pairwise_map]
    rw [List.pairwise_map] at hsorted
    exact hsorted
  · intro r hr
    unfold Positional.clusterRows at hr
    obtain ⟨r0, _, rfl⟩ := List.mem_map.mp hr
    exact List.sorted_insertionSort Positional.wordLeX r0.words
  · unfold Positional.clusterRows
    refine (flatMap_sortWords _).trans ?_
    refine (foldl_cluster_flatMap (Positional.sortedWordsOf ws) []).trans ?_
    simpa [Positional.sortedWordsOf] using List.perm_insertionSort Positional.wordLeY ws

/-- Witness for claim C2 at a concrete three-word input. -/
theorem claim_C2_witness :
    List.Pairwise Positional.wordLeX
      ((Positional.clusterRows Positional.demoClusterWords).headD
        { words := [], y0 := 0, y1 := 0 }).words ∧
    ((Positional.clusterRows Positional.demoClusterWords).flatMap
      Positional.Row.words).Perm Positional.demoClusterWords :=
  ⟨(claim_C2 Positional.demoClusterWords).2.1 _ (by decide),
   (claim_C2 Positional.demoClusterWords).2.2⟩
